import Mathlib

/-!
# Fixed-window rate limiter (`main.go`)

A shallow embedding of the rate-limiting core of `main.go`:

* `counterMap` (a Go `map[string]int`) is an association list of identifiers and counts;
* the closure returned by `rateLimitMiddleware` is run statement by statement on a
  `Frame`, which carries the counter map, the response writer, the mutex operations and
  handler calls performed so far, and the calls registered by `defer`;
* the body of the reset goroutine of `main` is `resetAll`;
* Go's `int` is a signed machine integer of 32 or 64 bits whose `c++` wraps around;
* `fmt.Fprintf` with a format and no operands, as `limitedHandler` calls it, follows the
  documented behaviour of package `fmt` on the directives it covers.
-/

namespace RateLimiter

/-! ## Go `int` -/

/-- The size of Go's `int`: the language fixes it per platform to 32 or 64 bits. -/
inductive IntSize where
  | bits32
  | bits64
deriving DecidableEq, Repr

/-- Half of the number of values of an `int`: `2^31` or `2^63`. -/
def IntSize.half : IntSize → Int
  | .bits32 => 2147483648
  | .bits64 => 9223372036854775808

/-- The largest `int`. -/
def maxInt (sz : IntSize) : Int := sz.half - 1

/-- The smallest `int`. -/
def minInt (sz : IntSize) : Int := -sz.half

/-- Two's-complement wrap-around of a mathematical integer into the range of `int`. -/
def wrapInt (sz : IntSize) (x : Int) : Int :=
  (x + sz.half) % (2 * sz.half) - sz.half

/-! ## `counterMap` -/

/-- The contents of `counterMap`, a `map[string]int`: the tracked identifiers with their
counts. An identifier is looked up through the first entry that carries it. -/
abbrev Store := List (String × Int)

/-- The tracked identifiers, in the order in which `range counterMap` visits them here. -/
def keys (m : Store) : List String := m.map Prod.fst

/-- Go's `v, ok := m[k]`: the entry of `k`, if `k` is tracked. -/
def lookup : Store → String → Option Int
  | [], _ => none
  | (k', v) :: rest, k => if k' = k then some v else lookup rest k

/-- Go's `m[k]` as an expression: the zero value `0` for an identifier that is absent. -/
def index (m : Store) (k : String) : Int := (lookup m k).getD 0

/-- Go's `m[k] = v`: overwrites the entry of `k`, or adds one when `k` is absent. -/
def assign : Store → String → Int → Store
  | [], k, v => [(k, v)]
  | (k', v') :: rest, k, v =>
    if k' = k then (k', v) :: rest else (k', v') :: assign rest k v

/-! ## The admission decision (`rateLimitMiddleware`, lines 45-49) -/

/-- The outcome of the comparison `c > *maxRequestPerWindow`. -/
inductive Decision where
  | Admit
  | Reject
deriving DecidableEq, Repr

/-- Lines 45-47: `c := counterMap[id]; c++; counterMap[id] = c`. Returns the incremented
value `c` and the updated map. -/
def incrementAndGet (sz : IntSize) (counterMap : Store) (id : String) : Int × Store :=
  let c := index counterMap id
  let c := wrapInt sz (c + 1)
  (c, assign counterMap id c)

/-- Line 49: `if c > *maxRequestPerWindow` selects `limitedHandler`, else `next`. -/
def compare (c maxRequestPerWindow : Int) : Decision :=
  if c > maxRequestPerWindow then Decision.Reject else Decision.Admit

/-- The counter part of the closure of `rateLimitMiddleware`: increment, then compare. -/
def check (sz : IntSize) (maxRequestPerWindow : Int) (counterMap : Store) (id : String) :
    Decision × Store :=
  let (c, counterMap) := incrementAndGet sz counterMap id
  (compare c maxRequestPerWindow, counterMap)

/-- Requests served one after the other, in the order in which the mutex lets them in:
for each one the incremented value and the decision, and the map left at the end. -/
def serve (sz : IntSize) (maxRequestPerWindow : Int) :
    Store → List String → List (Int × Decision) × Store
  | m, [] => ([], m)
  | m, id :: rest =>
    let (c, m1) := incrementAndGet sz m id
    let (out, m2) := serve sz maxRequestPerWindow m1 rest
    ((c, compare c maxRequestPerWindow) :: out, m2)

/-- The incremented values returned by a run of `serve`. -/
def values (sz : IntSize) (maxRequestPerWindow : Int) (m : Store) (ids : List String) :
    List Int :=
  (serve sz maxRequestPerWindow m ids).1.map Prod.fst

/-- The decisions returned by a run of `serve`. -/
def decisions (sz : IntSize) (maxRequestPerWindow : Int) (m : Store) (ids : List String) :
    List Decision :=
  (serve sz maxRequestPerWindow m ids).1.map Prod.snd

/-- The number of `Reject` decisions in a list of decisions. -/
def rejects (ds : List Decision) : Nat := ds.count Decision.Reject

/-- Whether call number `n` (counted from 1) is the first one that returns `Reject`:
it returns `Reject` and every call before it returns `Admit`. -/
def firstRejectAt (ds : List Decision) (n : Nat) : Bool :=
  decide (ds[n - 1]? = some Decision.Reject) &&
    (ds.take (n - 1)).all (fun d => decide (d = Decision.Admit))

/-! ## The reset goroutine (`main`, lines 120-124) -/

/-- The loop `for k := range counterMap { counterMap[k] = 0 }` over the identifiers `ks`
that the iteration visits. -/
def resetLoop (ks : List String) (counterMap : Store) : Store :=
  ks.foldl (fun m k => assign m k 0) counterMap

/-- One tick of the reset goroutine: every tracked identifier is assigned `0`. -/
def resetAll (counterMap : Store) : Store :=
  resetLoop (keys counterMap) counterMap

/-- The two operations that touch `counterMap`. -/
inductive Op where
  | check (id : String)
  | reset
deriving DecidableEq, Repr

/-- The effect of one operation on `counterMap`. -/
def step (sz : IntSize) (maxRequestPerWindow : Int) (m : Store) : Op → Store
  | Op.check id => (check sz maxRequestPerWindow m id).2
  | Op.reset => resetAll m

/-- The effect of a finite sequence of operations, in the order the mutex serialises them. -/
def run (sz : IntSize) (maxRequestPerWindow : Int) (m : Store) (ops : List Op) : Store :=
  ops.foldl (step sz maxRequestPerWindow) m

/-- How many calls for `k` the sequence `ops` holds after its last reset, or in all when
it holds no reset: the calls for `k` in the window that is open at the end of `ops`. -/
def callsSinceReset (k : String) (ops : List Op) : Nat :=
  ops.foldl (fun n op =>
    match op with
    | Op.check id => if id = k then n + 1 else n
    | Op.reset => 0) 0

/-! ## The request pipeline (`rateLimitMiddleware`, `limitedHandler`) -/

/-- What the pipeline reads of an `*http.Request`: the value of `r.URL.Query().Get("id")`,
the empty string when the parameter is missing. The value is taken to be valid UTF-8
text. -/
structure Request where
  id : String
deriving DecidableEq, Repr

/-- What a handler has written to its `http.ResponseWriter`: the status code, once it is
fixed, and the body so far. -/
structure ResponseWriter where
  status : Option Nat
  body : String
deriving DecidableEq, Repr

/-- The writer a request starts with: no header and no body written. -/
def freshWriter : ResponseWriter := ⟨none, ""⟩

/-- The constant `http.StatusTooManyRequests`. -/
def StatusTooManyRequests : Nat := 429

/-- The constant `http.StatusOK`, the status of a response whose header was never written. -/
def StatusOK : Nat := 200

/-- The call `w.WriteHeader(code)`: the first call fixes the status, later ones are ignored. -/
def writeHeader (w : ResponseWriter) (code : Nat) : ResponseWriter :=
  match w.status with
  | none => { w with status := some code }
  | some _ => w

/-- The call `w.Write(text)`: appends to the body, after fixing the status to `StatusOK`
when no header was written before. -/
def write (w : ResponseWriter) (text : String) : ResponseWriter :=
  { status := some (w.status.getD StatusOK), body := w.body ++ text }

/-- The characters that, right after a `%`, start a flag, a width, a precision or an
argument index instead of being the verb. -/
def directiveChars : List Char := "#0+- 123456789.[*".toList

/-- The text that package `fmt` of the Go standard library produces for a format string
when the call passes no operands, as `fmt.Fprintf(w, format)` does: text outside of
directives is copied, `%%` gives `%`, a `%` that ends the format gives `%!(NOVERB)`, and
a `%` followed by a verb `c` gives `%!c(MISSING)` because no operand is left for it.
Directives with flags, width, precision or argument index are outside this fragment
(`none`). -/
def formatNoOperands : List Char → Option (List Char)
  | [] => some []
  | c :: rest =>
    if c ≠ '%' then (formatNoOperands rest).map (fun out => c :: out)
    else
      match rest with
      | [] => some "%!(NOVERB)".toList
      | v :: rest1 =>
        if v = '%' then (formatNoOperands rest1).map (fun out => '%' :: out)
        else if v ∈ directiveChars then none
        else (formatNoOperands rest1).map
          (fun out => "%!".toList ++ v :: ("(MISSING)".toList ++ out))

/-- The call `fmt.Fprintf(w, format)`, with a format and no operands. -/
def fprintf (w : ResponseWriter) (format : String) : Option ResponseWriter :=
  (formatNoOperands format.toList).map (fun out => write w (String.mk out))

/-- The rejection responder, lines 73-76:
`w.WriteHeader(http.StatusTooManyRequests); fmt.Fprintf(w, r.URL.Query().Get("id"))`. -/
def limitedHandler (w : ResponseWriter) (r : Request) : Option ResponseWriter :=
  fprintf (writeHeader w StatusTooManyRequests) r.id

/-- The two handlers the closure of `rateLimitMiddleware` can call. -/
inductive Handler where
  | limitedHandler
  | next
deriving DecidableEq, Repr

/-- What the closure of `rateLimitMiddleware` does that other goroutines can observe,
in program order. -/
inductive Event where
  | lock
  | unlock
  | call (h : Handler)
  | ret (h : Handler)
deriving DecidableEq, Repr

/-- The state of one run of the closure of `rateLimitMiddleware`: the counter map, what
has been written to `w` (`none` once a write falls outside the modelled fragment of
`fmt`), the events performed so far, and the calls registered by `defer`, the most
recent first. -/
structure Frame where
  counterMap : Store
  writer : Option ResponseWriter
  trace : List Event
  deferred : List Event
deriving DecidableEq, Repr

/-- The statement `mtx.Lock()`. -/
def mtxLock (f : Frame) : Frame :=
  { f with trace := f.trace ++ [Event.lock] }

/-- The statement `defer mtx.Unlock()`: the unlock is only registered, to run when the
closure returns. -/
def deferMtxUnlock (f : Frame) : Frame :=
  { f with deferred := Event.unlock :: f.deferred }

/-- A call `h(w, r)` of a handler, from its start to its return; `body` is what the
handler does to the writer. -/
def callHandler (h : Handler) (body : ResponseWriter → Option ResponseWriter) (f : Frame) :
    Frame :=
  { f with writer := f.writer.bind body, trace := f.trace ++ [Event.call h, Event.ret h] }

/-- The return of the closure, by `return` or by reaching its end: Go runs the deferred
calls, the most recent first. -/
def returnClosure (f : Frame) : Frame :=
  { f with trace := f.trace ++ f.deferred, deferred := [] }

/-- The closure returned by `rateLimitMiddleware(next)`, lines 42-55, statement by
statement. -/
def rateLimitMiddleware (sz : IntSize) (maxRequestPerWindow : Int)
    (next : ResponseWriter → Request → ResponseWriter)
    (counterMap : Store) (w : ResponseWriter) (r : Request) : Frame :=
  let f : Frame := { counterMap := counterMap, writer := some w, trace := [], deferred := [] }
  let f := mtxLock f
  let f := deferMtxUnlock f
  let c := index f.counterMap r.id
  let c := wrapInt sz (c + 1)
  let f := { f with counterMap := assign f.counterMap r.id c }
  if c > maxRequestPerWindow then
    let f := callHandler Handler.limitedHandler (fun w => limitedHandler w r) f
    returnClosure f
  else
    let f := callHandler Handler.next (fun w => some (next w r)) f
    returnClosure f

/-- Whether `mtx` is held after the events of `t`, starting from an unlocked mutex. -/
def held (t : List Event) : Bool :=
  t.foldl (fun h e =>
    match e with
    | Event.lock => true
    | Event.unlock => false
    | _ => h) false

/-- Whether `mtx` is held at the moment the handler `h` is called in the trace `t`. -/
def heldAtCall (t : List Event) (h : Handler) : Bool :=
  held (t.takeWhile (fun e => decide (e ≠ Event.call h)))

/-- Whether `mtx` is still held at the moment the handler `h` returns in the trace `t`. -/
def heldAtReturn (t : List Event) (h : Handler) : Bool :=
  held (t.takeWhile (fun e => decide (e ≠ Event.ret h)))

/-- How many times the handler `h` is called in the trace `t`. -/
def calls (t : List Event) (h : Handler) : Nat := t.count (Event.call h)

/-! ## Facts about `int` arithmetic -/

theorem wrapInt_of_inRange (sz : IntSize) (x : Int) (h1 : minInt sz ≤ x)
    (h2 : x ≤ maxInt sz) : wrapInt sz x = x := by
  cases sz <;> simp only [wrapInt, minInt, maxInt, IntSize.half] at * <;> omega

theorem wrapInt_succ_maxInt (sz : IntSize) : wrapInt sz (maxInt sz + 1) = minInt sz := by
  cases sz <;> simp only [wrapInt, minInt, maxInt, IntSize.half] <;> omega

theorem wrapInt_one (sz : IntSize) : wrapInt sz (0 + 1) = 1 := by
  cases sz <;> simp only [wrapInt, IntSize.half] <;> omega

theorem minInt_neg (sz : IntSize) : minInt sz < 0 := by
  cases sz <;> simp only [minInt, IntSize.half] <;> omega

theorem maxInt_pos (sz : IntSize) : 0 < maxInt sz := by
  cases sz <;> simp only [maxInt, IntSize.half] <;> omega

/-! ## Facts about `counterMap` -/

theorem lookup_assign_self (m : Store) (k : String) (v : Int) :
    lookup (assign m k v) k = some v := by
  induction m with
  | nil => simp [assign, lookup]
  | cons e rest ih =>
    obtain ⟨k', v'⟩ := e
    by_cases h : k' = k
    · simp [assign, lookup, h]
    · simp [assign, lookup, h, ih]

theorem lookup_assign_ne (m : Store) (k k2 : String) (v : Int) (h : k2 ≠ k) :
    lookup (assign m k v) k2 = lookup m k2 := by
  induction m with
  | nil => simp [assign, lookup, h.symm]
  | cons e rest ih =>
    obtain ⟨k', v'⟩ := e
    by_cases h1 : k' = k
    · subst h1
      simp [assign, lookup, h.symm]
    · by_cases h2 : k' = k2
      · subst h2
        simp [assign, lookup, h1]
      · simp [assign, lookup, h1, h2, ih]

theorem index_assign_self (m : Store) (k : String) (v : Int) :
    index (assign m k v) k = v := by
  simp [index, lookup_assign_self]

theorem index_assign_ne (m : Store) (k k2 : String) (v : Int) (h : k2 ≠ k) :
    index (assign m k v) k2 = index m k2 := by
  simp [index, lookup_assign_ne m k k2 v h]

theorem lookup_eq_none_iff (m : Store) (k : String) : lookup m k = none ↔ k ∉ keys m := by
  induction m with
  | nil => simp [lookup, keys]
  | cons e rest ih =>
    obtain ⟨k', v'⟩ := e
    by_cases h : k' = k
    · simp [lookup, keys, h]
    · have h' : ¬ k = k' := fun e => h e.symm
      simpa [lookup, keys, h, h'] using ih

theorem keys_assign_of_mem (m : Store) (k : String) (v : Int) (h : k ∈ keys m) :
    keys (assign m k v) = keys m := by
  induction m with
  | nil => simp [keys] at h
  | cons e rest ih =>
    obtain ⟨k', v'⟩ := e
    by_cases h1 : k' = k
    · simp [assign, keys, h1]
    · have h' : ¬ k = k' := fun e => h1 e.symm
      have hr : k ∈ keys rest := by simpa [keys, h'] using h
      have := ih hr
      simp only [keys] at this
      simp [assign, keys, h1, this]

theorem keys_resetLoop (ks : List String) (m : Store) (h : ∀ k, k ∈ ks → k ∈ keys m) :
    keys (resetLoop ks m) = keys m := by
  induction ks generalizing m with
  | nil => rfl
  | cons k rest ih =>
    have hk : keys (assign m k 0) = keys m := keys_assign_of_mem m k 0 (h k (by simp))
    have := ih (assign m k 0) (fun k2 h2 => by rw [hk]; exact h k2 (by simp [h2]))
    simpa [resetLoop, hk] using this

theorem lookup_resetLoop (ks : List String) (m : Store) (k : String) :
    lookup (resetLoop ks m) k = if k ∈ ks then some 0 else lookup m k := by
  induction ks generalizing m with
  | nil => simp [resetLoop]
  | cons k1 rest ih =>
    have := ih (assign m k1 0)
    simp only [resetLoop, List.foldl_cons] at this ⊢
    rw [this]
    by_cases h1 : k ∈ rest
    · simp [h1]
    · by_cases h2 : k = k1
      · subst h2
        simp [h1, lookup_assign_self]
      · simp [h1, h2, lookup_assign_ne m k1 k 0 h2]

theorem index_resetAll (m : Store) (k : String) : index (resetAll m) k = 0 := by
  unfold index resetAll
  rw [lookup_resetLoop]
  by_cases h : k ∈ keys m
  · simp [h]
  · simp [h, (lookup_eq_none_iff m k).2 h]

/-! ## Facts about `check` -/

theorem check_fst (sz : IntSize) (maxRequests : Int) (m : Store) (id : String) :
    (check sz maxRequests m id).1 = compare (wrapInt sz (index m id + 1)) maxRequests := rfl

theorem check_snd (sz : IntSize) (maxRequests : Int) (m : Store) (id : String) :
    (check sz maxRequests m id).2 = assign m id (wrapInt sz (index m id + 1)) := rfl

theorem compare_eq_Reject (c maxRequests : Int) :
    compare c maxRequests = Decision.Reject ↔ maxRequests < c := by
  unfold compare
  by_cases h : c > maxRequests
  · simp [h]
  · simp [h]

theorem compare_eq_Admit (c maxRequests : Int) :
    compare c maxRequests = Decision.Admit ↔ c ≤ maxRequests := by
  unfold compare
  by_cases h : c > maxRequests
  · simp [h]
  · simp [h]
    exact not_lt.mp h

/-- The order in which the reset loop visits the tracked identifiers does not matter:
every enumeration `ks` of them leaves the same entries as `resetAll`. -/
theorem resetLoop_any_order (m : Store) (ks : List String)
    (h : ∀ k, k ∈ ks ↔ k ∈ keys m) (k : String) :
    lookup (resetLoop ks m) k = lookup (resetAll m) k ∧
      keys (resetLoop ks m) = keys (resetAll m) := by
  unfold resetAll
  rw [lookup_resetLoop, lookup_resetLoop, keys_resetLoop ks m (fun k hk => (h k).1 hk),
    keys_resetLoop (keys m) m (fun _ hk => hk)]
  refine ⟨?_, rfl⟩
  by_cases hk : k ∈ keys m
  · simp [hk, (h k).2 hk]
  · have hk2 : k ∉ ks := fun e => hk ((h k).1 e)
    simp [hk, hk2]

/-! ## Facts about runs of calls -/

theorem serve_cons (sz : IntSize) (maxRequests : Int) (m : Store) (id : String)
    (rest : List String) :
    serve sz maxRequests m (id :: rest) =
      ((wrapInt sz (index m id + 1), compare (wrapInt sz (index m id + 1)) maxRequests) ::
          (serve sz maxRequests (assign m id (wrapInt sz (index m id + 1))) rest).1,
        (serve sz maxRequests (assign m id (wrapInt sz (index m id + 1))) rest).2) := rfl

theorem serve_append (sz : IntSize) (maxRequests : Int) (m : Store) (xs ys : List String) :
    serve sz maxRequests m (xs ++ ys) =
      ((serve sz maxRequests m xs).1 ++
          (serve sz maxRequests (serve sz maxRequests m xs).2 ys).1,
        (serve sz maxRequests (serve sz maxRequests m xs).2 ys).2) := by
  induction xs generalizing m with
  | nil => simp [serve]
  | cons x rest ih =>
    rw [List.cons_append, serve_cons, serve_cons, ih]
    simp

theorem serve_length (sz : IntSize) (maxRequests : Int) (m : Store) (ids : List String) :
    (serve sz maxRequests m ids).1.length = ids.length := by
  induction ids generalizing m with
  | nil => simp [serve]
  | cons x rest ih =>
    rw [serve_cons]
    simp [ih]

/-- While no increment overflows, `n` calls for `k` return the values that follow the
count `k` starts with, one by one, and leave the count `n` higher. -/
theorem serve_replicate (sz : IntSize) (maxRequests : Int) (k : String) (n : Nat)
    (m : Store) (hlo : minInt sz ≤ index m k) (hhi : index m k + n ≤ maxInt sz) :
    (serve sz maxRequests m (List.replicate n k)).1 =
      (List.range n).map (fun (i : Nat) =>
        (index m k + (i : Int) + 1, compare (index m k + (i : Int) + 1) maxRequests)) ∧
    index (serve sz maxRequests m (List.replicate n k)).2 k = index m k + n := by
  induction n generalizing m with
  | zero => simp [serve]
  | succ n ih =>
    have hw : wrapInt sz (index m k + 1) = index m k + 1 :=
      wrapInt_of_inRange sz _ (by omega) (by push_cast at hhi; omega)
    have hi : index (assign m k (index m k + 1)) k = index m k + 1 :=
      index_assign_self m k _
    have := ih (assign m k (index m k + 1)) (by rw [hi]; omega)
      (by rw [hi]; push_cast at hhi; omega)
    rw [hi] at this
    rw [List.replicate_succ, serve_cons, hw, List.range_succ_eq_map, List.map_cons,
      List.map_map]
    refine ⟨?_, ?_⟩
    · simp only [this.1, Nat.cast_zero, add_zero]
      congr 1
      apply List.map_congr_left
      intro i _
      simp only [Function.comp, Nat.succ_eq_add_one, Nat.cast_add, Nat.cast_one]
      have e : index m k + 1 + (i : Int) + 1 = index m k + ((i : Int) + 1) + 1 := by ring
      rw [e]
    · rw [this.2]
      push_cast
      ring

/-- The call that follows `M` calls for `k`, where `M` is the largest `int` and `k`
starts at 0, returns the smallest `int`. -/
theorem serve_replicate_overflow (sz : IntSize) (maxRequests : Int) (k : String) (M : Nat)
    (m : Store) (h0 : index m k = 0) (hM : (M : Int) = maxInt sz) :
    (serve sz maxRequests m (List.replicate (M + 1) k)).1 =
      (serve sz maxRequests m (List.replicate M k)).1 ++
        [(minInt sz, compare (minInt sz) maxRequests)] ∧
    index (serve sz maxRequests m (List.replicate (M + 1) k)).2 k = minInt sz := by
  have hmin := minInt_neg sz
  have hr := serve_replicate sz maxRequests k M m (by omega) (by omega)
  have hidx : index (serve sz maxRequests m (List.replicate M k)).2 k = maxInt sz := by
    rw [hr.2, h0, hM]
    ring
  rw [List.replicate_succ', serve_append, serve_cons, hidx, wrapInt_succ_maxInt]
  exact ⟨rfl, index_assign_self _ _ _⟩

theorem run_append (sz : IntSize) (maxRequests : Int) (m : Store) (xs ys : List Op) :
    run sz maxRequests m (xs ++ ys) = run sz maxRequests (run sz maxRequests m xs) ys := by
  simp [run, List.foldl_append]

theorem run_checks (sz : IntSize) (maxRequests : Int) (m : Store) (ids : List String) :
    run sz maxRequests m (ids.map Op.check) = (serve sz maxRequests m ids).2 := by
  induction ids generalizing m with
  | nil => rfl
  | cons x rest ih =>
    rw [serve_cons]
    simp only [List.map_cons, run, List.foldl_cons] at ih ⊢
    rw [← ih]
    rfl

theorem run_concat (sz : IntSize) (maxRequests : Int) (m : Store) (pre : List Op) (op : Op) :
    run sz maxRequests m (pre ++ [op]) = step sz maxRequests (run sz maxRequests m pre) op := by
  rw [run_append]
  rfl

theorem callsSinceReset_concat_check (k id : String) (pre : List Op) :
    callsSinceReset k (pre ++ [Op.check id]) =
      if id = k then callsSinceReset k pre + 1 else callsSinceReset k pre := by
  simp [callsSinceReset, List.foldl_append]

theorem callsSinceReset_concat_reset (k : String) (pre : List Op) :
    callsSinceReset k (pre ++ [Op.reset]) = 0 := by
  simp [callsSinceReset, List.foldl_append]

/-- The calls for `k` since the last reset are at most as many as the operations. -/
theorem callsSinceReset_le_length (k : String) (ops : List Op) :
    callsSinceReset k ops ≤ ops.length := by
  induction ops using List.reverseRecOn with
  | nil => simp [callsSinceReset]
  | append_singleton pre op ih =>
    cases op with
    | check id =>
      rw [callsSinceReset_concat_check]
      by_cases h : id = k
      · simp [h]
        omega
      · simp [h]
        omega
    | reset =>
      rw [callsSinceReset_concat_reset]
      omega

/-- A start of `ops ++ [op]` is a start of `ops`, or all of `ops ++ [op]`. -/
theorem concat_eq_append (ops pre post : List Op) (op : Op) (h : ops ++ [op] = pre ++ post) :
    (∃ post1, ops = pre ++ post1) ∨ (pre = ops ++ [op] ∧ post = []) := by
  rcases List.eq_nil_or_concat post with hp | ⟨post1, x, hp⟩
  · subst hp
    right
    simp at h
    exact ⟨h.symm, rfl⟩
  · subst hp
    left
    rw [List.concat_eq_append, ← List.append_assoc] at h
    exact ⟨post1, (List.append_inj' h rfl).1⟩

/-- While the calls for `k` since the last reset never exceed the largest `int`, the
count of `k` is the number of these calls. -/
theorem index_run_eq_callsSinceReset (sz : IntSize) (maxRequests : Int) (k : String)
    (ops : List Op)
    (h : ∀ pre post, ops = pre ++ post → (callsSinceReset k pre : Int) ≤ maxInt sz) :
    index (run sz maxRequests [] ops) k = (callsSinceReset k ops : Int) := by
  induction ops using List.reverseRecOn with
  | nil => simp [run, callsSinceReset, index, lookup]
  | append_singleton pre op ih =>
    have hpre : ∀ p q, pre = p ++ q → (callsSinceReset k p : Int) ≤ maxInt sz :=
      fun p q e => h p (q ++ [op]) (by rw [e, List.append_assoc])
    have hall := h (pre ++ [op]) [] (by simp)
    have hi := ih hpre
    have hmin := minInt_neg sz
    rw [run_concat]
    cases op with
    | check id =>
      rw [callsSinceReset_concat_check] at hall ⊢
      simp only [step, check_snd]
      by_cases hk : id = k
      · subst hk
        simp only [if_true] at hall ⊢
        push_cast at hall ⊢
        rw [index_assign_self, hi]
        exact wrapInt_of_inRange sz _ (by omega) hall
      · have hk2 : k ≠ id := fun e => hk e.symm
        simp only [if_neg hk]
        rw [index_assign_ne _ id k _ hk2, hi]
    | reset =>
      rw [callsSinceReset_concat_reset]
      simp only [step, index_resetAll]
      rfl

/-- Among the decisions for the counter values `1, ..., N`, those above a non-negative
`maxRequests` are rejected: `N - maxRequests` of them, or none. -/
theorem count_reject_range (maxRequests : Int) (hmr : 0 ≤ maxRequests) (N : Nat) :
    ((((List.range N).map (fun (i : Nat) => compare ((i : Int) + 1) maxRequests)).count
      Decision.Reject : Nat) : Int) = max 0 ((N : Int) - maxRequests) := by
  induction N with
  | zero =>
    simp only [List.range_zero, List.map_nil, List.count_nil]
    push_cast
    omega
  | succ N ih =>
    rw [List.range_succ, List.map_append, List.count_append]
    push_cast
    rw [ih]
    by_cases h : maxRequests < (N : Int) + 1
    · have hc : compare ((N : Int) + 1) maxRequests = Decision.Reject :=
        (compare_eq_Reject _ _).2 h
      simp only [List.map_cons, List.map_nil, hc, List.count_singleton_self]
      push_cast
      omega
    · have hc : compare ((N : Int) + 1) maxRequests = Decision.Admit :=
        (compare_eq_Admit _ _).2 (by omega)
      simp only [List.map_cons, List.map_nil, hc]
      have : List.count Decision.Reject [Decision.Admit] = 0 := by decide
      rw [this]
      push_cast
      omega

/-- From a count of 0, and while no increment overflows, the calls for one identifier
return the values `1, ..., N` and the decisions that belong to these values. -/
theorem serve_from_zero (sz : IntSize) (maxRequests : Int) (m : Store) (k : String)
    (N : Nat) (h0 : index m k = 0) (hN : (N : Int) ≤ maxInt sz) :
    values sz maxRequests m (List.replicate N k) =
      (List.range N).map (fun (i : Nat) => (i : Int) + 1) ∧
    decisions sz maxRequests m (List.replicate N k) =
      (List.range N).map (fun (i : Nat) => compare ((i : Int) + 1) maxRequests) := by
  have hmin := minInt_neg sz
  have hr := (serve_replicate sz maxRequests k N m (by omega) (by omega)).1
  unfold values decisions
  rw [hr, h0]
  simp [List.map_map, Function.comp]

/-- Call number `n` of the decisions for the counter values `1, 2, ...` is the decision
for the value `n`. -/
theorem decisions_range_nth (maxRequests : Int) (n : Nat) (hn1 : 1 ≤ n) :
    ((List.range n).map (fun (i : Nat) => compare ((i : Int) + 1) maxRequests))[n - 1]?
      = some (compare (n : Int) maxRequests) := by
  have hlt : n - 1 < n := by omega
  have e : (((n - 1 : Nat) : Int) + 1) = (n : Int) := by omega
  simp [List.getElem?_map, List.getElem?_range hlt, e]

/-- The calls before call number `n` are all admitted exactly when the counter values
`1, ..., n - 1` are all within `maxRequests`. -/
theorem decisions_range_before (maxRequests : Int) (n : Nat) :
    (((List.range n).map (fun (i : Nat) => compare ((i : Int) + 1) maxRequests)).take
        (n - 1)).all (fun d => decide (d = Decision.Admit)) = true ↔
      ∀ i : Nat, i < n - 1 → (i : Int) + 1 ≤ maxRequests := by
  rw [← List.map_take, List.take_range, List.all_eq_true]
  have hmin : min (n - 1) n = n - 1 := by omega
  rw [hmin]
  constructor
  · intro h i hi
    have := h (compare ((i : Int) + 1) maxRequests)
      (List.mem_map.2 ⟨i, List.mem_range.2 hi, rfl⟩)
    exact (compare_eq_Admit _ _).1 (by simpa using this)
  · intro h d hd
    obtain ⟨i, hi, rfl⟩ := List.mem_map.1 hd
    simpa using (compare_eq_Admit _ _).2 (h i (List.mem_range.1 hi))

/-! ## Facts about the pipeline -/

theorem rateLimitMiddleware_of_Reject (sz : IntSize) (maxRequests : Int)
    (next : ResponseWriter → Request → ResponseWriter) (m : Store) (w : ResponseWriter)
    (r : Request) (h : (check sz maxRequests m r.id).1 = Decision.Reject) :
    rateLimitMiddleware sz maxRequests next m w r =
      { counterMap := (check sz maxRequests m r.id).2
        writer := limitedHandler w r
        trace := [Event.lock, Event.call Handler.limitedHandler,
          Event.ret Handler.limitedHandler, Event.unlock]
        deferred := [] } := by
  rw [check_fst, compare_eq_Reject] at h
  have h' : wrapInt sz (index m r.id + 1) > maxRequests := h
  simp only [rateLimitMiddleware, mtxLock, deferMtxUnlock, callHandler, returnClosure,
    check_snd]
  rw [if_pos h']
  rfl

theorem rateLimitMiddleware_of_Admit (sz : IntSize) (maxRequests : Int)
    (next : ResponseWriter → Request → ResponseWriter) (m : Store) (w : ResponseWriter)
    (r : Request) (h : (check sz maxRequests m r.id).1 = Decision.Admit) :
    rateLimitMiddleware sz maxRequests next m w r =
      { counterMap := (check sz maxRequests m r.id).2
        writer := some (next w r)
        trace := [Event.lock, Event.call Handler.next, Event.ret Handler.next,
          Event.unlock]
        deferred := [] } := by
  rw [check_fst, compare_eq_Admit] at h
  have h' : ¬ wrapInt sz (index m r.id + 1) > maxRequests := not_lt.mpr h
  simp only [rateLimitMiddleware, mtxLock, deferMtxUnlock, callHandler, returnClosure,
    check_snd]
  rw [if_neg h']
  rfl

/-- The closure of `rateLimitMiddleware` leaves the counter map that `check` computes,
calls `limitedHandler` exactly when `check` returns `Reject` and `next` exactly when
`check` returns `Admit`. -/
theorem rateLimitMiddleware_check (sz : IntSize) (maxRequests : Int)
    (next : ResponseWriter → Request → ResponseWriter) (m : Store) (w : ResponseWriter)
    (r : Request) :
    (rateLimitMiddleware sz maxRequests next m w r).counterMap
      = (check sz maxRequests m r.id).2 ∧
    (calls (rateLimitMiddleware sz maxRequests next m w r).trace Handler.limitedHandler = 1
      ↔ (check sz maxRequests m r.id).1 = Decision.Reject) ∧
    (calls (rateLimitMiddleware sz maxRequests next m w r).trace Handler.next = 1
      ↔ (check sz maxRequests m r.id).1 = Decision.Admit) := by
  cases h : (check sz maxRequests m r.id).1 with
  | Admit =>
    rw [rateLimitMiddleware_of_Admit sz maxRequests next m w r h]
    refine ⟨rfl, ?_, ?_⟩ <;> dsimp only <;> decide
  | Reject =>
    rw [rateLimitMiddleware_of_Reject sz maxRequests next m w r h]
    refine ⟨rfl, ?_, ?_⟩ <;> dsimp only <;> decide

/-- A format without any `%` is written out unchanged. -/
theorem formatNoOperands_of_no_percent (cs : List Char) (h : '%' ∉ cs) :
    formatNoOperands cs = some cs := by
  induction cs with
  | nil => simp [formatNoOperands]
  | cons c rest ih =>
    have hc : c ≠ '%' := fun e => h (by simp [e])
    have hr : '%' ∉ rest := fun e => h (by simp [e])
    unfold formatNoOperands
    simp [hc, ih hr]

theorem limitedHandler_of_no_percent (r : Request) (h : '%' ∉ r.id.toList) :
    limitedHandler freshWriter r = some ⟨some StatusTooManyRequests, r.id⟩ := by
  simp only [limitedHandler, fprintf, formatNoOperands_of_no_percent _ h, Option.map_some',
    writeHeader, freshWriter, write, Option.getD_some]
  have e : "" ++ String.mk r.id.toList = r.id := by simp
  rw [e]

/-! ## C1: the comparison is strict -/

/-- C1, as stated, fails where the count is the largest `int`: with 64-bit `int`,
`maxRequests = 5` and the count of `a` at `2^63 - 1`, the old count plus one exceeds
`maxRequests`, yet `c++` wraps to the smallest `int` and the call is admitted. -/
theorem check_reject_iff_fails_at_maxInt :
    ¬ ((check IntSize.bits64 5 [("a", 9223372036854775807)] "a").1 = Decision.Reject ↔
        (5 : Int) < index [("a", 9223372036854775807)] "a" + 1) := by
  decide

/-- C1, amended: where the count of `id` is an `int` below the largest `int`, the call
returns `Reject` if and only if the old count (0 if absent) plus one is strictly greater
than `maxRequests`; a call that brings the count to exactly `maxRequests` is admitted. -/
theorem check_reject_iff (sz : IntSize) (maxRequests : Int) (m : Store) (id : String)
    (hlo : minInt sz ≤ index m id) (hhi : index m id < maxInt sz) :
    ((check sz maxRequests m id).1 = Decision.Reject ↔ maxRequests < index m id + 1) ∧
    (index m id + 1 = maxRequests → (check sz maxRequests m id).1 = Decision.Admit) := by
  have hw : wrapInt sz (index m id + 1) = index m id + 1 :=
    wrapInt_of_inRange sz _ (by omega) (by omega)
  rw [check_fst, hw]
  refine ⟨compare_eq_Reject _ _, fun h => ?_⟩
  rw [compare_eq_Admit]
  omega

/-- With `maxRequests = 5`, the call that brings the count of `a` from 4 to 5 is
admitted. -/
theorem check_reject_iff_witness :
    ((check IntSize.bits64 5 [("a", 4)] "a").1 = Decision.Reject ↔
        (5 : Int) < index [("a", 4)] "a" + 1) ∧
    (check IntSize.bits64 5 [("a", 4)] "a").1 = Decision.Admit :=
  ⟨(check_reject_iff IntSize.bits64 5 [("a", 4)] "a" (by decide) (by decide)).1,
    (check_reject_iff IntSize.bits64 5 [("a", 4)] "a" (by decide) (by decide)).2
      (by decide)⟩

/-! ## C4: the first call after a reset -/

/-- C4: for every store, identifier and positive `maxRequests`, the call that directly
follows a reset is admitted, whatever the count of the identifier was before the reset. -/
theorem check_after_resetAll_admits (sz : IntSize) (maxRequests : Int) (m : Store)
    (k : String) (hpos : 0 < maxRequests) :
    (check sz maxRequests (resetAll m) k).1 = Decision.Admit := by
  rw [check_fst, index_resetAll, wrapInt_one, compare_eq_Admit]
  omega

/-- With `maxRequests = 5`, `alice` at a count of 6 is admitted right after a reset. -/
theorem check_after_resetAll_admits_witness :
    (check IntSize.bits64 5 (resetAll [("alice", 6), ("bob", 2)]) "alice").1
      = Decision.Admit :=
  check_after_resetAll_admits IntSize.bits64 5 [("alice", 6), ("bob", 2)] "alice" (by decide)

/-! ## C5: isolation -/

/-- C5: a call for `k1` leaves the entry of every other identifier `k2` as it was (the
count, and whether `k2` is tracked at all), and a following call for `k2` returns the
decision it would have returned without the call for `k1`. -/
theorem check_isolation (sz : IntSize) (maxRequests : Int) (m : Store) (k1 k2 : String)
    (hne : k2 ≠ k1) :
    lookup (check sz maxRequests m k1).2 k2 = lookup m k2 ∧
    index (check sz maxRequests m k1).2 k2 = index m k2 ∧
    (check sz maxRequests (check sz maxRequests m k1).2 k2).1
      = (check sz maxRequests m k2).1 := by
  have h1 : lookup (check sz maxRequests m k1).2 k2 = lookup m k2 := by
    rw [check_snd]
    exact lookup_assign_ne m k1 k2 _ hne
  have h2 : index (check sz maxRequests m k1).2 k2 = index m k2 := by
    rw [check_snd]
    exact index_assign_ne m k1 k2 _ hne
  refine ⟨h1, h2, ?_⟩
  rw [check_fst, check_fst, h2]

/-- A call for `alice` leaves `bob` absent and does not change the decision for `bob`. -/
theorem check_isolation_witness :
    lookup (check IntSize.bits64 5 [("alice", 5)] "alice").2 "bob"
      = lookup [("alice", 5)] "bob" ∧
    index (check IntSize.bits64 5 [("alice", 5)] "alice").2 "bob"
      = index [("alice", 5)] "bob" ∧
    (check IntSize.bits64 5 (check IntSize.bits64 5 [("alice", 5)] "alice").2 "bob").1
      = (check IntSize.bits64 5 [("alice", 5)] "bob").1 :=
  check_isolation IntSize.bits64 5 [("alice", 5)] "alice" "bob" (by decide)

/-! ## C6: every call is counted -/

/-- C6, as stated, fails where the count is the largest `int`: with 64-bit `int` and the
count of `a` at `2^63 - 1`, the call leaves the count at `-2^63`, not at the previous
count plus one. -/
theorem check_counts_one_fails_at_maxInt :
    ¬ (index (check IntSize.bits64 5 [("a", 9223372036854775807)] "a").2 "a"
        = index [("a", 9223372036854775807)] "a" + 1) := by
  decide

/-- C6, amended: where the count of `id` is an `int` below the largest `int`, every call,
admitted or rejected, leaves `id` tracked with exactly its previous count (0 if absent)
plus one; after a rejected call the count is above `maxRequests`, so it is not capped. -/
theorem check_counts_one (sz : IntSize) (maxRequests : Int) (m : Store) (id : String)
    (hlo : minInt sz ≤ index m id) (hhi : index m id < maxInt sz) :
    lookup (check sz maxRequests m id).2 id = some (index m id + 1) ∧
    index (check sz maxRequests m id).2 id = index m id + 1 ∧
    ((check sz maxRequests m id).1 = Decision.Reject →
      maxRequests < index (check sz maxRequests m id).2 id) := by
  have hw : wrapInt sz (index m id + 1) = index m id + 1 :=
    wrapInt_of_inRange sz _ (by omega) (by omega)
  rw [check_fst, check_snd, hw, lookup_assign_self, index_assign_self]
  exact ⟨rfl, rfl, (compare_eq_Reject _ _).1⟩

/-- With `maxRequests = 5`, a rejected call for `a` at a count of 7 leaves the count
at 8. -/
theorem check_counts_one_witness :
    lookup (check IntSize.bits64 5 [("a", 7)] "a").2 "a"
      = some (index [("a", 7)] "a" + 1) ∧
    index (check IntSize.bits64 5 [("a", 7)] "a").2 "a" = index [("a", 7)] "a" + 1 ∧
    (5 : Int) < index (check IntSize.bits64 5 [("a", 7)] "a").2 "a" :=
  ⟨(check_counts_one IntSize.bits64 5 [("a", 7)] "a" (by decide) (by decide)).1,
    (check_counts_one IntSize.bits64 5 [("a", 7)] "a" (by decide) (by decide)).2.1,
    (check_counts_one IntSize.bits64 5 [("a", 7)] "a" (by decide) (by decide)).2.2
      (by decide)⟩

/-! ## C7: the reset zeroes and keeps every entry -/

/-- C7: a reset leaves every tracked identifier with a count of exactly 0, leaves every
other identifier absent, keeps the tracked identifiers as they were, and does nothing
to the empty store. -/
theorem resetAll_zeroes_and_keeps (m : Store) :
    (∀ k, k ∈ keys m → lookup (resetAll m) k = some 0) ∧
    (∀ k, k ∉ keys m → lookup (resetAll m) k = none) ∧
    keys (resetAll m) = keys m ∧
    resetAll [] = [] := by
  refine ⟨fun k hk => ?_, fun k hk => ?_, ?_, rfl⟩
  · unfold resetAll
    rw [lookup_resetLoop]
    simp [hk]
  · unfold resetAll
    rw [lookup_resetLoop]
    simp [hk, (lookup_eq_none_iff m k).2 hk]
  · exact keys_resetLoop (keys m) m (fun _ h => h)

/-- A reset of the store that tracks `alice` at 6 and `bob` at 2 leaves `alice` at 0,
`carol` absent and the tracked identifiers as they were. -/
theorem resetAll_zeroes_and_keeps_witness :
    lookup (resetAll [("alice", 6), ("bob", 2)]) "alice" = some 0 ∧
    lookup (resetAll [("alice", 6), ("bob", 2)]) "carol" = none ∧
    keys (resetAll [("alice", 6), ("bob", 2)]) = keys [("alice", 6), ("bob", 2)] ∧
    resetAll [] = [] :=
  ⟨(resetAll_zeroes_and_keeps [("alice", 6), ("bob", 2)]).1 "alice" (by decide),
    (resetAll_zeroes_and_keeps [("alice", 6), ("bob", 2)]).2.1 "carol" (by decide),
    (resetAll_zeroes_and_keeps [("alice", 6), ("bob", 2)]).2.2.1,
    (resetAll_zeroes_and_keeps [("alice", 6), ("bob", 2)]).2.2.2⟩

/-! ## C2: the calls for one identifier within one window -/

/-- C2, as stated, fails for `N` above the largest `int`: with 64-bit `int`, `2^63`
calls for `a` from the empty store do not return the values `1, ..., 2^63`, because the
last increment wraps to `-2^63`. -/
theorem serve_same_id_fails_past_maxInt :
    ¬ (values IntSize.bits64 5 [] (List.replicate 9223372036854775808 "a") =
          (List.range 9223372036854775808).map (fun (i : Nat) => (i : Int) + 1) ∧
        ((rejects (decisions IntSize.bits64 5 []
            (List.replicate 9223372036854775808 "a")) : Nat) : Int) =
          max 0 (((9223372036854775808 : Nat) : Int) - 5)) := by
  intro h
  have hv := congrArg List.getLast? h.1
  have e : (9223372036854775808 : Nat) = 9223372036854775807 + 1 := by norm_num
  have hs := (serve_replicate_overflow IntSize.bits64 5 "a" 9223372036854775807 []
    rfl (by decide)).1
  rw [e] at hv
  unfold values at hv
  rw [hs, List.range_succ, List.map_append, List.map_append, List.getLast?_append,
    List.getLast?_append] at hv
  simp only [List.map_cons, List.map_nil, List.getLast?_singleton] at hv
  change some (minInt IntSize.bits64) = some (((9223372036854775807 : Nat) : Int) + 1) at hv
  revert hv
  decide

/-- C2, amended: for every identifier `k`, every `maxRequests >= 0` and every `N` up to
the largest `int`, `N` calls for `k` that start from a count of 0 return the counter
values `1, 2, ..., N` in this order, and exactly `max(0, N - maxRequests)` of them are
rejected. -/
theorem serve_same_id (sz : IntSize) (maxRequests : Int) (m : Store) (k : String) (N : Nat)
    (h0 : index m k = 0) (hmr : 0 ≤ maxRequests) (hN : (N : Int) ≤ maxInt sz) :
    values sz maxRequests m (List.replicate N k) =
      (List.range N).map (fun (i : Nat) => (i : Int) + 1) ∧
    ((rejects (decisions sz maxRequests m (List.replicate N k)) : Nat) : Int) =
      max 0 ((N : Int) - maxRequests) := by
  have h := serve_from_zero sz maxRequests m k N h0 hN
  refine ⟨h.1, ?_⟩
  rw [h.2]
  exact count_reject_range maxRequests hmr N

/-- With `maxRequests = 5`, seven calls for `alice` return `1, ..., 7` and two of them
are rejected. -/
theorem serve_same_id_witness :
    values IntSize.bits64 5 [] (List.replicate 7 "alice") =
      (List.range 7).map (fun (i : Nat) => (i : Int) + 1) ∧
    ((rejects (decisions IntSize.bits64 5 [] (List.replicate 7 "alice")) : Nat) : Int) =
      max 0 (((7 : Nat) : Int) - 5) :=
  serve_same_id IntSize.bits64 5 [] "alice" 7 (by decide) (by decide) (by decide)

/-! ## C3: the first rejected call -/

/-- C3, as stated, fails in two places. With `maxRequests = 5`, call number 7 is not the
first call to return `Reject` (call number 6 is) although `7 > maxRequests`. And with
64-bit `int`, call number `2^63` does not return `Reject` at all although
`2^63 > maxRequests`, because its increment wraps to `-2^63`. -/
theorem nth_call_first_reject_fails :
    ¬ (firstRejectAt (decisions IntSize.bits64 5 [] (List.replicate 7 "a")) 7 = true ↔
        (5 : Int) < ((7 : Nat) : Int)) ∧
    ¬ ((decisions IntSize.bits64 5 []
          (List.replicate 9223372036854775808 "a"))[9223372036854775808 - 1]?
        = some Decision.Reject ↔ (5 : Int) < ((9223372036854775808 : Nat) : Int)) := by
  refine ⟨by decide, fun h => ?_⟩
  have hr := h.2 (by decide)
  have e : (9223372036854775808 : Nat) = 9223372036854775807 + 1 := by norm_num
  have e2 : (9223372036854775808 : Nat) - 1 = 9223372036854775807 := by norm_num
  have hs := (serve_replicate_overflow IntSize.bits64 5 "a" 9223372036854775807 []
    rfl (by decide)).1
  have hl := serve_length IntSize.bits64 5 [] (List.replicate 9223372036854775807 "a")
  rw [List.length_replicate] at hl
  rw [e2, e] at hr
  unfold decisions at hr
  rw [hs, List.map_append, List.getElem?_append_right (by rw [List.length_map, hl]),
    List.length_map, hl, Nat.sub_self] at hr
  revert hr
  decide

/-- C3, amended: for every identifier `k` whose count starts at 0 and every `n >= 1` up to
the largest `int`, call number `n` of `n` sequential calls for `k` returns `Reject` if and
only if `n > maxRequests`, and it is the first call to return `Reject` if and only if
`n = max(maxRequests, 0) + 1`. -/
theorem nth_call_reject_iff (sz : IntSize) (maxRequests : Int) (m : Store) (k : String)
    (n : Nat) (h0 : index m k = 0) (hn1 : 1 ≤ n) (hn : (n : Int) ≤ maxInt sz) :
    ((decisions sz maxRequests m (List.replicate n k))[n - 1]? = some Decision.Reject ↔
      maxRequests < (n : Int)) ∧
    (firstRejectAt (decisions sz maxRequests m (List.replicate n k)) n = true ↔
      (n : Int) = max maxRequests 0 + 1) := by
  have h := (serve_from_zero sz maxRequests m k n h0 hn).2
  have hnth := decisions_range_nth maxRequests n hn1
  have hbefore := decisions_range_before maxRequests n
  rw [← h] at hnth hbefore
  have hfirst : (decisions sz maxRequests m (List.replicate n k))[n - 1]?
      = some Decision.Reject ↔ maxRequests < (n : Int) := by
    rw [hnth, Option.some_inj]
    exact compare_eq_Reject _ _
  refine ⟨hfirst, ?_⟩
  unfold firstRejectAt
  rw [Bool.and_eq_true, decide_eq_true_eq, hfirst, hbefore]
  constructor
  · rintro ⟨h1, h2⟩
    by_cases hn2 : n = 1
    · subst hn2
      push_cast at h1 ⊢
      omega
    · have := h2 (n - 2) (by omega)
      omega
  · intro hE
    refine ⟨by omega, fun i hi => ?_⟩
    omega

/-- With `maxRequests = 5`, call number 6 returns `Reject` and is the first to do so. -/
theorem nth_call_reject_iff_witness :
    ((decisions IntSize.bits64 5 [] (List.replicate 6 "a"))[6 - 1]? = some Decision.Reject ↔
      (5 : Int) < ((6 : Nat) : Int)) ∧
    (firstRejectAt (decisions IntSize.bits64 5 [] (List.replicate 6 "a")) 6 = true ↔
      ((6 : Nat) : Int) = max 5 0 + 1) :=
  nth_call_reject_iff IntSize.bits64 5 [] "a" 6 (by decide) (by decide) (by decide)

/-! ## C8: the counts of reachable stores -/

/-- C8, as stated, fails once a count passes the largest `int`: with 64-bit `int`, the
store reached from the empty store by `2^63` calls for `a`, without any reset, holds
a negative count for `a`. -/
theorem reachable_count_negative :
    index (run IntSize.bits64 5 []
      (List.replicate 9223372036854775808 (Op.check "a"))) "a" < 0 := by
  have e : (9223372036854775808 : Nat) = 9223372036854775807 + 1 := by norm_num
  have hs := (serve_replicate_overflow IntSize.bits64 5 "a" 9223372036854775807 []
    rfl (by decide)).2
  rw [← List.map_replicate, run_checks, e, hs]
  decide

/-- The bound of the amended C8 cannot be dropped: when, at some point of `ops`, `k` has
been called more often since the last reset than the largest `int`, the count of `k` is
negative at some point of `ops`. -/
theorem reachable_counts_bound_needed (sz : IntSize) (maxRequests : Int) (k : String)
    (ops : List Op)
    (h : ¬ ∀ pre post, ops = pre ++ post → (callsSinceReset k pre : Int) ≤ maxInt sz) :
    ∃ pre post, ops = pre ++ post ∧ index (run sz maxRequests [] pre) k < 0 := by
  induction ops using List.reverseRecOn with
  | nil =>
    exfalso
    apply h
    intro pre post e
    have hp : pre = [] := (List.append_eq_nil.1 e.symm).1
    subst hp
    have := maxInt_pos sz
    simp [callsSinceReset]
    omega
  | append_singleton ops op ih =>
    by_cases hops : ∀ pre post, ops = pre ++ post → (callsSinceReset k pre : Int) ≤ maxInt sz
    · have hall : ¬ (callsSinceReset k (ops ++ [op]) : Int) ≤ maxInt sz := by
        intro hle
        apply h
        intro pre post e
        rcases concat_eq_append ops pre post op e with ⟨post1, e1⟩ | ⟨e1, _⟩
        · exact hops pre post1 e1
        · rw [e1]
          exact hle
      have hlast := hops ops [] (by simp)
      have hi := index_run_eq_callsSinceReset sz maxRequests k ops hops
      refine ⟨ops ++ [op], [], by simp, ?_⟩
      rw [run_concat]
      cases op with
      | check id =>
        rw [callsSinceReset_concat_check] at hall
        by_cases hk : id = k
        · subst hk
          simp only [if_true] at hall
          push_cast at hall
          have hc : index (run sz maxRequests [] ops) id = maxInt sz := by omega
          simp only [step, check_snd]
          rw [index_assign_self, hc, wrapInt_succ_maxInt]
          exact minInt_neg sz
        · simp only [if_neg hk] at hall
          exact absurd hlast hall
      | reset =>
        rw [callsSinceReset_concat_reset] at hall
        have := maxInt_pos sz
        exfalso
        apply hall
        push_cast
        omega
    · obtain ⟨pre, post, e, hneg⟩ := ih hops
      exact ⟨pre, post ++ [op], by rw [e, List.append_assoc], hneg⟩

/-- C8, amended: along every sequence of calls and resets that starts from the empty
store, as long as an identifier `k` is never called more often since the last reset than
the largest `int`, the count of `k` is never negative and every call for `k` raises it by
exactly one; every reset leaves every count at exactly 0, whatever came before. -/
theorem reachable_counts (sz : IntSize) (maxRequests : Int) (ops : List Op) (k : String) :
    ((∀ pre post, ops = pre ++ post → (callsSinceReset k pre : Int) ≤ maxInt sz) →
      (∀ pre post, ops = pre ++ post → 0 ≤ index (run sz maxRequests [] pre) k) ∧
      (∀ pre post, ops = pre ++ Op.check k :: post →
        index (run sz maxRequests [] pre) k
            < index (run sz maxRequests [] (pre ++ [Op.check k])) k ∧
          index (run sz maxRequests [] (pre ++ [Op.check k])) k
            = index (run sz maxRequests [] pre) k + 1)) ∧
    (∀ pre post, ops = pre ++ Op.reset :: post →
      index (run sz maxRequests [] (pre ++ [Op.reset])) k = 0) := by
  refine ⟨fun h => ⟨fun pre post e => ?_, fun pre post e => ?_⟩, fun pre post _ => ?_⟩
  · have hpre : ∀ p q, pre = p ++ q → (callsSinceReset k p : Int) ≤ maxInt sz :=
      fun p q e1 => h p (q ++ post) (by rw [e, e1, List.append_assoc])
    rw [index_run_eq_callsSinceReset sz maxRequests k pre hpre]
    exact Int.ofNat_nonneg _
  · have hpre : ∀ p q, pre = p ++ q → (callsSinceReset k p : Int) ≤ maxInt sz :=
      fun p q e1 => h p (q ++ Op.check k :: post) (by rw [e, e1, List.append_assoc])
    have hnext : ∀ p q, pre ++ [Op.check k] = p ++ q →
        (callsSinceReset k p : Int) ≤ maxInt sz :=
      fun p q e1 => h p (q ++ post) (by
        rw [e, ← List.append_assoc, ← e1]
        simp)
    rw [index_run_eq_callsSinceReset sz maxRequests k pre hpre,
      index_run_eq_callsSinceReset sz maxRequests k _ hnext, callsSinceReset_concat_check]
    simp only [if_true]
    push_cast
    omega
  · rw [run_concat]
    simp only [step, index_resetAll]

/-- Along two calls for `a`, a reset and a call for `b`, no identifier is called more
often than the number of operations, which is below the largest `int`: the count of `a`
is not negative after the two calls, the second call raises it from 1 to 2, and the reset
leaves it at 0. -/
theorem reachable_counts_witness :
    0 ≤ index (run IntSize.bits64 5 [] [Op.check "a", Op.check "a"]) "a" ∧
    (index (run IntSize.bits64 5 [] [Op.check "a"]) "a"
        < index (run IntSize.bits64 5 [] ([Op.check "a"] ++ [Op.check "a"])) "a" ∧
      index (run IntSize.bits64 5 [] ([Op.check "a"] ++ [Op.check "a"])) "a"
        = index (run IntSize.bits64 5 [] [Op.check "a"]) "a" + 1) ∧
    index (run IntSize.bits64 5 [] ([Op.check "a", Op.check "a"] ++ [Op.reset])) "a" = 0 :=
  have hbound : ∀ pre post,
      [Op.check "a", Op.check "a", Op.reset, Op.check "b"] = pre ++ post →
      (callsSinceReset "a" pre : Int) ≤ maxInt IntSize.bits64 := fun pre post e => by
    have h1 := callsSinceReset_le_length "a" pre
    have h2 : pre.length ≤ 4 := by
      have := congrArg List.length e
      simp at this
      omega
    have h3 : (4 : Int) ≤ maxInt IntSize.bits64 := by decide
    omega
  ⟨((reachable_counts IntSize.bits64 5
        [Op.check "a", Op.check "a", Op.reset, Op.check "b"] "a").1 hbound).1
      [Op.check "a", Op.check "a"] [Op.reset, Op.check "b"] rfl,
    ((reachable_counts IntSize.bits64 5
        [Op.check "a", Op.check "a", Op.reset, Op.check "b"] "a").1 hbound).2
      [Op.check "a"] [Op.reset, Op.check "b"] rfl,
    (reachable_counts IntSize.bits64 5
        [Op.check "a", Op.check "a", Op.reset, Op.check "b"] "a").2
      [Op.check "a", Op.check "a"] [Op.check "b"] rfl⟩

/-! ## C9: the two branches of the pipeline -/

/-- C9 at the identifier `%d`, rejected because its count is already at `maxRequests`:
the status is 429 and `next` is not called, yet the body is `%!d(MISSING)` and not the
identifier, because `limitedHandler` passes the identifier to `fmt.Fprintf` as the
format string. -/
theorem limitedHandler_body_at_percent_d :
    (rateLimitMiddleware IntSize.bits64 5 (fun w _ => w) [("%d", 5)] freshWriter
        ⟨"%d"⟩).writer = some ⟨some 429, "%!d(MISSING)"⟩ ∧
    (rateLimitMiddleware IntSize.bits64 5 (fun w _ => w) [("%d", 5)] freshWriter
        ⟨"%d"⟩).writer ≠ some ⟨some 429, "%d"⟩ ∧
    calls (rateLimitMiddleware IntSize.bits64 5 (fun w _ => w) [("%d", 5)] freshWriter
        ⟨"%d"⟩).trace Handler.next = 0 := by
  decide

/-- The part of C9 that the code keeps: for an identifier without any `%`, a rejected
request gets the status 429 and the identifier as its body, with `next` not called; and an
admitted request, whatever its identifier, gets what `next` writes, with `next` called
exactly once and `limitedHandler` not called. -/
theorem rateLimitMiddleware_branches (sz : IntSize) (maxRequests : Int)
    (next : ResponseWriter → Request → ResponseWriter) (m : Store) (r : Request) :
    ((check sz maxRequests m r.id).1 = Decision.Reject → '%' ∉ r.id.toList →
      (rateLimitMiddleware sz maxRequests next m freshWriter r).writer
          = some ⟨some StatusTooManyRequests, r.id⟩ ∧
        calls (rateLimitMiddleware sz maxRequests next m freshWriter r).trace
          Handler.next = 0 ∧
        calls (rateLimitMiddleware sz maxRequests next m freshWriter r).trace
          Handler.limitedHandler = 1) ∧
    ((check sz maxRequests m r.id).1 = Decision.Admit →
      (rateLimitMiddleware sz maxRequests next m freshWriter r).writer
          = some (next freshWriter r) ∧
        calls (rateLimitMiddleware sz maxRequests next m freshWriter r).trace
          Handler.next = 1 ∧
        calls (rateLimitMiddleware sz maxRequests next m freshWriter r).trace
          Handler.limitedHandler = 0) := by
  constructor
  · intro h hp
    rw [rateLimitMiddleware_of_Reject sz maxRequests next m freshWriter r h]
    exact ⟨limitedHandler_of_no_percent r hp, rfl, rfl⟩
  · intro h
    rw [rateLimitMiddleware_of_Admit sz maxRequests next m freshWriter r h]
    exact ⟨rfl, rfl, rfl⟩

/-! ## C10: the mutex and the downstream call -/

/-- C10, as stated, fails: for an admitted request (the first one for `a`, with
`maxRequests = 5`) the closure performs lock, call of `next`, return of `next`, unlock,
so the mutex is not released before `next` is invoked; it is held at that moment. -/
theorem lock_not_released_before_next :
    (rateLimitMiddleware IntSize.bits64 5 (fun w _ => w) [] freshWriter ⟨"a"⟩).trace
      = [Event.lock, Event.call Handler.next, Event.ret Handler.next, Event.unlock] ∧
    ¬ (heldAtCall
        (rateLimitMiddleware IntSize.bits64 5 (fun w _ => w) [] freshWriter ⟨"a"⟩).trace
        Handler.next = false) := by
  decide

/-- C10, amended: for every admitted request the closure performs, in this order, lock,
call of `next`, return of `next`, unlock: the mutex is held when `next` is invoked and
while it runs, and is released only after `next` has returned. -/
theorem lock_held_across_next (sz : IntSize) (maxRequests : Int)
    (next : ResponseWriter → Request → ResponseWriter) (m : Store) (w : ResponseWriter)
    (r : Request) (h : (check sz maxRequests m r.id).1 = Decision.Admit) :
    (rateLimitMiddleware sz maxRequests next m w r).trace
      = [Event.lock, Event.call Handler.next, Event.ret Handler.next, Event.unlock] ∧
    heldAtCall (rateLimitMiddleware sz maxRequests next m w r).trace Handler.next = true ∧
    heldAtReturn (rateLimitMiddleware sz maxRequests next m w r).trace Handler.next = true ∧
    held (rateLimitMiddleware sz maxRequests next m w r).trace = false := by
  rw [rateLimitMiddleware_of_Admit sz maxRequests next m w r h]
  exact ⟨rfl, rfl, rfl, rfl⟩

/-- The third request for `a`, admitted with `maxRequests = 5`, holds the mutex while
`next` runs. -/
theorem lock_held_across_next_witness :
    (rateLimitMiddleware IntSize.bits64 5 (fun w _ => w) [("a", 2)] freshWriter ⟨"a"⟩).trace
      = [Event.lock, Event.call Handler.next, Event.ret Handler.next, Event.unlock] ∧
    heldAtCall (rateLimitMiddleware IntSize.bits64 5 (fun w _ => w) [("a", 2)] freshWriter
      ⟨"a"⟩).trace Handler.next = true ∧
    heldAtReturn (rateLimitMiddleware IntSize.bits64 5 (fun w _ => w) [("a", 2)] freshWriter
      ⟨"a"⟩).trace Handler.next = true ∧
    held (rateLimitMiddleware IntSize.bits64 5 (fun w _ => w) [("a", 2)] freshWriter
      ⟨"a"⟩).trace = false :=
  lock_held_across_next IntSize.bits64 5 (fun w _ => w) [("a", 2)] freshWriter ⟨"a"⟩
    (by decide)

end RateLimiter
